import Mathlib

/-! keep-core: GJKR message payloads and the relay node's group filter

A shallow embedding of `pkg/beacon/relay/gjkr/message.go` and
`pkg/beacon/relay/node.go`, with the properties of the pairwise share
payload, the decryption pre-filter, the group-member filter and the
group-joining procedure.

Conventions of the embedding:

* a Go `[]byte` is a `List Byte` with `Byte = Fin 256`;
* a Go `*big.Int` is an `Int`;
* a Go `map[K]V` is an association list with unique keys (`AList`);
* a Go `(value, error)` result is an `Except`; a method that mutates its
  receiver and returns an `error` returns the new receiver and an
  `Option` error.
-/

/-- One octet. -/
abbrev Byte := Fin 256

/-! ## `math/big`: the byte encoding of integers -/

namespace big

/-- Base-256 digits of `n`, least significant first, without trailing zero
digits; `fuel` bounds the number of digits produced. -/
def leBytes : Nat → Nat → List Byte
  | 0, _ => []
  | fuel + 1, n =>
    if n = 0 then []
    else ⟨n % 256, Nat.mod_lt n (by decide)⟩ :: leBytes fuel (n / 256)

/-- `(*big.Int).Bytes`: the absolute value of `x` as a big-endian byte slice
(empty for zero, no leading zero bytes). -/
def Bytes (x : Int) : List Byte :=
  (leBytes x.natAbs x.natAbs).reverse

/-- Value of a big-endian unsigned byte string, accumulated from the most
significant byte. -/
def beValue (buf : List Byte) : Nat :=
  buf.foldl (fun acc b => acc * 256 + b.val) 0

/-- `(*big.Int).SetBytes`: interprets `buf` as the bytes of a big-endian
unsigned integer. -/
def SetBytes (buf : List Byte) : Int :=
  Int.ofNat (beValue buf)

end big

/-! ## `pkg/net/ephemeral`: the symmetric key interface -/

namespace ephemeral

/-- Error reported by a symmetric key operation. -/
abbrev KeyError := String

/-- Modelled from the spec: the `ephemeral.SymmetricKey` interface, whose
declaration is in the package `pkg/net/ephemeral`, not embedded here. It supports authenticated
encryption and decryption of opaque byte payloads, and both operations may
fail. `Encrypt` takes the randomness drawn by the call (its nonce) as an
explicit first argument, so that two encryptions of one plaintext may
differ; `Decrypt` is a function of the ciphertext alone. -/
structure SymmetricKey where
  Encrypt : Nat → List Byte → Except KeyError (List Byte)
  Decrypt : List Byte → Except KeyError (List Byte)

/-- A private ephemeral key, identified by its scalar. -/
structure PrivateKey where
  D : Int
deriving DecidableEq, Repr

end ephemeral

/-! ## `pkg/beacon/relay/gjkr/message.go` -/

namespace gjkr

open ephemeral

/-- Identifier of a group member. -/
abbrev MemberID := Nat

/-- The errors built by `fmt.Errorf` in `message.go`, one constructor for
each format string, carrying the formatted arguments. -/
inductive GjkrError
  | couldNotEncryptS (cause : KeyError)
  | couldNotEncryptT (cause : KeyError)
  | noSharesForReceiver (receiverID : MemberID)
  | couldNotDecryptS (cause : KeyError)
  | couldNotDecryptT (cause : KeyError)
deriving DecidableEq, Repr

/-- The pair of encrypted shares `(s_ij, t_ij)` for one receiver. -/
structure peerShares where
  encryptedShareS : List Byte
  encryptedShareT : List Byte
deriving DecidableEq, Repr

/-- Payload carrying the shares computed by sender `i` for every other
member `j`. -/
structure PeerSharesMessage where
  senderID : MemberID
  shares : AList (fun _ : MemberID => peerShares)

/-- A message of `senderID` with an empty shares map. -/
def newPeerSharesMessage (senderID : MemberID) : PeerSharesMessage :=
  { senderID := senderID, shares := ∅ }

/-- Encrypts both shares and stores them under `receiverID`. Returns the
message after the call and the error, if any. `nonceS` and `nonceT` are the
randomness drawn by the first and the second `Encrypt` call. -/
def PeerSharesMessage.addShares (psm : PeerSharesMessage)
    (receiverID : MemberID) (shareS shareT : Int)
    (symmetricKey : SymmetricKey) (nonceS nonceT : Nat) :
    PeerSharesMessage × Option GjkrError :=
  match symmetricKey.Encrypt nonceS (big.Bytes shareS) with
  | .error err => (psm, some (.couldNotEncryptS err))
  | .ok encryptedS =>
    match symmetricKey.Encrypt nonceT (big.Bytes shareT) with
    | .error err => (psm, some (.couldNotEncryptT err))
    | .ok encryptedT =>
      ({ psm with shares := psm.shares.insert receiverID ⟨encryptedS, encryptedT⟩ },
        none)

/-- Decrypts the S share stored for `receiverID`. -/
def PeerSharesMessage.decryptShareS (psm : PeerSharesMessage)
    (receiverID : MemberID) (key : SymmetricKey) : Except GjkrError Int :=
  match psm.shares.lookup receiverID with
  | none => .error (.noSharesForReceiver receiverID)
  | some shares =>
    match key.Decrypt shares.encryptedShareS with
    | .error err => .error (.couldNotDecryptS err)
    | .ok decryptedS => .ok (big.SetBytes decryptedS)

/-- Decrypts the T share stored for `receiverID`. -/
def PeerSharesMessage.decryptShareT (psm : PeerSharesMessage)
    (receiverID : MemberID) (key : SymmetricKey) : Except GjkrError Int :=
  match psm.shares.lookup receiverID with
  | none => .error (.noSharesForReceiver receiverID)
  | some shares =>
    match key.Decrypt shares.encryptedShareT with
    | .error err => .error (.couldNotDecryptT err)
    | .ok decryptedT => .ok (big.SetBytes decryptedT)

/-- Whether both shares for `receiverID` decrypt with `key`. -/
def PeerSharesMessage.CanDecrypt (psm : PeerSharesMessage)
    (receiverID : MemberID) (key : SymmetricKey) : Bool :=
  match psm.decryptShareS receiverID key with
  | .error _ => false
  | .ok _ =>
    match psm.decryptShareT receiverID key with
    | .error _ => false
    | .ok _ => true

/-- A key for examples: encryption prepends the low byte of the nonce,
decryption removes it and fails on an empty ciphertext. -/
def exampleKey : SymmetricKey where
  Encrypt := fun nonce plaintext =>
    .ok (⟨nonce % 256, Nat.mod_lt nonce (by decide)⟩ :: plaintext)
  Decrypt := fun ciphertext =>
    match ciphertext with
    | [] => .error "ciphertext too short"
    | _ :: plaintext => .ok plaintext

end gjkr

/-! ## `bytes` and `encoding/hex` -/

namespace bytes

/-- `bytes.Compare`: lexicographic comparison of two byte slices, giving
`-1`, `0` or `1`. -/
def Compare : List Byte → List Byte → Int
  | [], [] => 0
  | [], _ :: _ => -1
  | _ :: _, [] => 1
  | a :: as, b :: bs =>
    if a < b then -1 else if b < a then 1 else Compare as bs

end bytes

namespace hex

/-- The digits used by `encoding/hex`. -/
def hextable : List Char :=
  ['0', '1', '2', '3', '4', '5', '6', '7', '8', '9', 'a', 'b', 'c', 'd', 'e', 'f']

/-- The characters of the encoding: for every byte `v`, `hextable[v>>4]`
followed by `hextable[v&0x0f]`. -/
def encode : List Byte → List Char
  | [] => []
  | v :: rest =>
    hextable.getD (v.val >>> 4) '0' :: hextable.getD (v.val &&& 0x0f) '0' :: encode rest

/-- `hex.EncodeToString`. -/
def EncodeToString (src : List Byte) : String :=
  String.mk (encode src)

end hex

namespace big

/-- Digits of `n` in `base`, least significant first, as characters of
`0-9a-z`; `fuel` bounds the number of digits. -/
def leDigits (base : Nat) : Nat → Nat → List Char
  | 0, _ => []
  | fuel + 1, n =>
    if n = 0 then []
    else "0123456789abcdefghijklmnopqrstuvwxyz".toList.getD (n % base) '0'
      :: leDigits base fuel (n / base)

/-- `(*big.Int).Text` for a base between 2 and 36: the digits of `x`, most
significant first, with a leading minus sign for a negative `x`; `"0"` for
zero. -/
def Text (x : Int) (base : Nat) : String :=
  if x = 0 then "0"
  else
    String.mk ((if x < 0 then ['-'] else [])
      ++ (leDigits base x.natAbs x.natAbs).reverse)

end big

/-! ## `pkg/beacon/relay/node.go` -/

namespace relay

/-- `relaychain.StakerAddress`, a byte slice. -/
abbrev StakerAddress := List Byte

/-- `ecdsa.PublicKey`, by its coordinates. -/
structure PublicKey where
  X : Int
  Y : Int
deriving DecidableEq, Repr

/-- Modelled from the spec: the part of `chain.Signing` the filter uses,
`PublicKeyToAddress`, a deterministic mapping from a public key to the
bytes of an address. The interface is declared in `pkg/chain`, not
embedded here. -/
structure Signing where
  PublicKeyToAddress : PublicKey → List Byte

/-- `net.BroadcastChannelFilter`: a predicate over author public keys. -/
abbrev BroadcastChannelFilter := PublicKey → Bool

/-- Error reported by the network provider or a broadcast channel. -/
abbrev NetError := String

/-- Modelled from the spec: the part of `net.BroadcastChannel` the node uses,
its name and `SetFilter`, which installs an authorization predicate and may
fail. The interface is declared in `pkg/net`, not embedded here. -/
structure BroadcastChannel where
  Name : String
  SetFilter : BroadcastChannelFilter → Option NetError

/-- Modelled from the spec: `net.Provider`, which hands out the broadcast
channel of a given name or fails. -/
structure Provider where
  ChannelFor : String → Except NetError BroadcastChannel

/-- The fields of `groupselection.Result` the node reads. -/
structure GroupSelectionResult where
  SelectedStakers : List StakerAddress
  GroupSelectionEndBlock : Nat

/-- The values of `config.Chain` the node reads: `GroupSize` and the result
of `DishonestThreshold()`. -/
structure ChainConfig where
  GroupSize : Nat
  DishonestThreshold : Nat

/-- The state of a relay node read by `JoinGroupIfEligible`; `StakerID` is
the result of `n.Staker.ID()`. -/
structure Node where
  StakerID : List Byte
  netProvider : Provider
  chainConfig : ChainConfig

/-- The messages logged at error level by `JoinGroupIfEligible`. -/
inductive LogMessage
  | failedToGetBroadcastChannel (err : NetError)
  | couldNotAddFilter (channelName : String) (err : NetError)
deriving DecidableEq, Repr

/-- The arguments of one `dkg.ExecuteDKG` call that are values; the block
counter, the relay chain and the signing handle are passed through
unchanged, and the broadcast channel is identified by its name. -/
structure DKGCall where
  newEntry : Int
  playerIndex : Nat
  groupSize : Nat
  dishonestThreshold : Nat
  startBlockHeight : Nat
  channelName : String
deriving DecidableEq, Repr

/-- What `JoinGroupIfEligible` does to the outside world, in program order:
a `ChannelFor` request, a `SetFilter` call together with the error it
returned, a line logged at error level, the start of a goroutine that runs
`dkg.ExecuteDKG`. -/
inductive Effect
  | channelFor (name : String)
  | setFilter (channelName : String) (filter : BroadcastChannelFilter)
      (err : Option NetError)
  | logError (message : LogMessage)
  | goExecuteDKG (call : DKGCall)

/-- Builds the set of authorized addresses, keyed by their hex encoding, and
returns the predicate that looks the author's address up in it. The debug
line logged on rejection is not part of the result. -/
def createGroupMemberFilter (members : List StakerAddress) (signing : Signing) :
    BroadcastChannelFilter :=
  let authorizations : AList (fun _ : String => Bool) :=
    members.foldl (fun m address => m.insert (hex.EncodeToString address) true) ∅
  fun authorPublicKey =>
    let authorAddress := hex.EncodeToString (signing.PublicKeyToAddress authorPublicKey)
    (authorizations.lookup authorAddress).isSome

/-- The first loop of `JoinGroupIfEligible`: the positions, counted from
`index`, at which the selected staker compares equal to `stakerID`. -/
def ownIndexes (stakerID : List Byte) : Nat → List StakerAddress → List Nat
  | _, [] => []
  | index, selectedStaker :: rest =>
    if bytes.Compare selectedStaker stakerID = 0 then
      index :: ownIndexes stakerID (index + 1) rest
    else ownIndexes stakerID (index + 1) rest

/-- The effects of `JoinGroupIfEligible`, in program order. -/
def Node.JoinGroupIfEligible (n : Node) (signing : Signing)
    (groupSelectionResult : GroupSelectionResult) (newEntry : Int) : List Effect :=
  let dkgStartBlockHeight := groupSelectionResult.GroupSelectionEndBlock
  let indexes := ownIndexes n.StakerID 0 groupSelectionResult.SelectedStakers
  if indexes.length > 0 then
    match n.netProvider.ChannelFor (big.Text newEntry 16) with
    | .error err =>
      [.channelFor (big.Text newEntry 16),
        .logError (.failedToGetBroadcastChannel err)]
    | .ok broadcastChannel =>
      let filter := createGroupMemberFilter groupSelectionResult.SelectedStakers signing
      let filterEffects : List Effect :=
        match broadcastChannel.SetFilter filter with
        | some err =>
          [.setFilter broadcastChannel.Name filter (some err),
            .logError (.couldNotAddFilter broadcastChannel.Name err)]
        | none => [.setFilter broadcastChannel.Name filter none]
      [.channelFor (big.Text newEntry 16)] ++ filterEffects
        ++ indexes.map (fun index =>
          .goExecuteDKG
            { newEntry := newEntry
              playerIndex := index
              groupSize := n.chainConfig.GroupSize
              dishonestThreshold := n.chainConfig.DishonestThreshold
              startBlockHeight := dkgStartBlockHeight
              channelName := broadcastChannel.Name })
  else []

/-- The calls of `dkg.ExecuteDKG` started in a trace, in order. -/
def startedDKGs : List Effect → List DKGCall
  | [] => []
  | .goExecuteDKG call :: rest => call :: startedDKGs rest
  | _ :: rest => startedDKGs rest

/-- The outcomes of the `SetFilter` calls in a trace: the error each one
returned, if any. -/
def setFilterOutcomes : List Effect → List (Option NetError)
  | [] => []
  | .setFilter _ _ err :: rest => err :: setFilterOutcomes rest
  | _ :: rest => setFilterOutcomes rest

/-- The names requested from `ChannelFor` in a trace. -/
def channelRequests : List Effect → List String
  | [] => []
  | .channelFor name :: rest => name :: channelRequests rest
  | _ :: rest => channelRequests rest

end relay

/-! ## The sharing phases of `gjkr`

The phase functions exercised by `protocol_sharing_test.go` are defined in
other files of the package; they are embedded from the specification. -/

namespace ephemeral

/-- An ephemeral key pair; the public half is identified by its
coordinates. -/
structure KeyPair where
  PrivateKey : PrivateKey
  PublicKeyX : Int
  PublicKeyY : Int
deriving DecidableEq, Repr

end ephemeral

namespace gjkr

open ephemeral

/-- Modelled from the spec: the protocol parameters, which are defined in
another file of the package: the group order `q` and the fixed generator `g` of the
group `G` in which public key share points live. -/
structure ProtocolParameters (G : Type) where
  Q : Int
  g : G

/-- Modelled from the spec: the state of a qualified member, which is defined
in another file of the package; the fields are those set and read by
`protocol_sharing_test.go`. -/
structure QualifiedMember (G : Type) where
  ID : MemberID
  protocolParameters : ProtocolParameters G
  ephemeralKeyPairs : AList (fun _ : MemberID => KeyPair)
  secretCoefficients : List Int
  selfSecretShareS : Int
  receivedValidSharesS : AList (fun _ : MemberID => Int)
  groupPrivateKeyShare : Option Int

/-- Modelled from the spec: the state of a sharing member, which is defined
in another file of the package: a qualified member together with its public key share
points. -/
structure SharingMember (G : Type) extends QualifiedMember G where
  publicKeySharePoints : List G

/-- Modelled from the spec: `InitializeSharing`, which is defined in another
file of the package; the member enters the sharing phase with no points computed. -/
def QualifiedMember.InitializeSharing {G : Type} (qm : QualifiedMember G) :
    SharingMember G :=
  { toQualifiedMember := qm, publicKeySharePoints := [] }

/-- Payload carrying the sender's public key share points `A_ik`. -/
structure MemberPublicKeySharePointsMessage (G : Type) where
  senderID : MemberID
  publicKeySharePoints : List G

/-- Payload carrying the sender's accusations after the validation of public
key share points. -/
structure PointsAccusationsMessage where
  senderID : MemberID
  accusedMembersKeys : AList (fun _ : MemberID => PrivateKey)

/-- Modelled from the spec: `CombineMemberShares`, which is defined in
another file of the package. The group private key share is the sum modulo `q` of the
member's own share and every received valid share. `iteration` is the
sequence in which the received shares map is ranged over. -/
def QualifiedMember.CombineMemberShares {G : Type} (qm : QualifiedMember G)
    (iteration : List (Sigma fun _ : MemberID => Int)) : QualifiedMember G :=
  { qm with
    groupPrivateKeyShare :=
      some ((iteration.foldl (fun combined s => combined + s.2) qm.selfSecretShareS)
        % qm.protocolParameters.Q) }

/-- Modelled from the spec: `CalculatePublicKeySharePoints`, which is defined
in another file of the package. For every secret coefficient `a_k` the point
`A_k = g^(a_k)` is computed; the points are stored in the member and sent in
the message. -/
def SharingMember.CalculatePublicKeySharePoints {G : Type} [Group G]
    (sm : SharingMember G) :
    SharingMember G × MemberPublicKeySharePointsMessage G :=
  let points := sm.secretCoefficients.map (fun a => sm.protocolParameters.g ^ a)
  ({ sm with publicKeySharePoints := points },
    { senderID := sm.ID, publicKeySharePoints := points })

/-- Modelled from the spec: the left side of the point check,
`A_0 * A_1^j * ... * A_T^(j^T)`, by Horner-style accumulation from the last
point. -/
def hornerPoints {G : Type} [Group G] (j : MemberID) : List G → G
  | [] => 1
  | A :: rest => A * hornerPoints j rest ^ j

/-- Modelled from the spec: the point check of member `j` for one sender:
the accumulated product equals the fixed-base exponentiation `g^(s_ij)`. -/
def isShareValidAgainstPublicKeySharePoints {G : Type} [Group G] [DecidableEq G]
    (g : G) (j : MemberID) (shareS : Int) (publicKeySharePoints : List G) : Bool :=
  decide (hornerPoints j publicKeySharePoints = g ^ shareS)

/-- The errors of the points verification embedding: the state the
specification takes for granted is absent. -/
inductive VerifyError
  | noShareFrom (senderID : MemberID)
  | noEphemeralKeyFor (senderID : MemberID)
deriving DecidableEq, Repr

/-- Modelled from the spec: the loop of `VerifyPublicKeySharePoints` over the
received messages. A sender whose points fail the check is added to the
accused map with the member's private ephemeral key for that sender. The
specification says nothing about a sender from which the member holds no
validated share or for which it has no ephemeral key; the embedding reports
that as an error. -/
def verifyPoints {G : Type} [Group G] [DecidableEq G] (sm : SharingMember G) :
    List (MemberPublicKeySharePointsMessage G) →
    AList (fun _ : MemberID => PrivateKey) →
    Except VerifyError (AList (fun _ : MemberID => PrivateKey))
  | [], accusedMembersKeys => .ok accusedMembersKeys
  | message :: rest, accusedMembersKeys =>
    match sm.receivedValidSharesS.lookup message.senderID with
    | none => .error (.noShareFrom message.senderID)
    | some shareS =>
      if isShareValidAgainstPublicKeySharePoints sm.protocolParameters.g sm.ID shareS
          message.publicKeySharePoints then
        verifyPoints sm rest accusedMembersKeys
      else
        match sm.ephemeralKeyPairs.lookup message.senderID with
        | none => .error (.noEphemeralKeyFor message.senderID)
        | some keyPair =>
          verifyPoints sm rest (accusedMembersKeys.insert message.senderID keyPair.PrivateKey)

/-- Modelled from the spec: `VerifyPublicKeySharePoints`, which is defined
in another file of the package. The accusations message names the member as sender and
carries the accused map built over all received messages, empty when no
check failed. -/
def SharingMember.VerifyPublicKeySharePoints {G : Type} [Group G] [DecidableEq G]
    (sm : SharingMember G) (messages : List (MemberPublicKeySharePointsMessage G)) :
    Except VerifyError PointsAccusationsMessage :=
  match verifyPoints sm messages ∅ with
  | .error err => .error err
  | .ok accusedMembersKeys =>
    .ok { senderID := sm.ID, accusedMembersKeys := accusedMembersKeys }

/-- The product `A_0^(j^0) * A_1^(j^1) * ... * A_T^(j^T)` as the
specification writes it. -/
def pointsProduct {G : Type} [Group G] (j : MemberID) (points : List G) : G :=
  ((List.range points.length).map (fun k => points.getD k 1 ^ (j ^ k))).prod

/-- Modelled from the spec: the share `s_ij = f_i(j)` of the polynomial with
the given coefficients, evaluated at the receiver's ID in the scalar field. -/
def evaluateMemberShare (q : Int) (memberID : MemberID) (coefficients : List Int) : Int :=
  (((List.range coefficients.length).map
    (fun k => coefficients.getD k 0 * (memberID : Int) ^ k)).sum) % q

end gjkr

/-! ## Values of `protocol_sharing_test.go` -/

namespace gjkr

open ephemeral

/-- The order of the bn256 groups, `bn256.Order`. -/
def bn256Order : Int :=
  21888242871839275222246405745257275088548364400416034343698204186575808495617

/-- The member of `TestCombineReceivedShares`: self share 9 and the shares
10 to 15 received from the peers 100 to 105. The group of points plays no
part in the combination and is the trivial one. -/
def combineTestMember : QualifiedMember Unit where
  ID := 1
  protocolParameters := { Q := bn256Order, g := () }
  ephemeralKeyPairs := ∅
  secretCoefficients := []
  selfSecretShareS := 9
  receivedValidSharesS :=
    (((((((∅ : AList (fun _ : MemberID => Int)).insert 100 10).insert 101 11).insert 102 12).insert
      103 13).insert 104 14).insert 105 15)
  groupPrivateKeyShare := none

end gjkr

namespace gjkr

open ephemeral

/-- A small group for examples: the integers modulo 7 written
multiplicatively, of order 7, generated by the class of 1. -/
abbrev SmallGroup := Multiplicative (ZMod 7)

/-- The generator of the small group. -/
def smallGenerator : SmallGroup := Multiplicative.ofAdd 1

/-- A sharing member with ID 1 over the small group. It holds the share 1
from member 2, whose polynomial is `3 + 5x`, and the share 6 from member 3,
whose polynomial is `2 + 4x`, and an ephemeral key pair for each of them. -/
def pointsTestMember : SharingMember SmallGroup where
  ID := 1
  protocolParameters := { Q := 7, g := smallGenerator }
  ephemeralKeyPairs :=
    ((∅ : AList (fun _ : MemberID => KeyPair)).insert 2 ⟨⟨22⟩, 0, 0⟩).insert 3 ⟨⟨33⟩, 0, 0⟩
  secretCoefficients := [1, 2]
  selfSecretShareS := 3
  receivedValidSharesS :=
    ((∅ : AList (fun _ : MemberID => Int)).insert 2 1).insert 3 6
  groupPrivateKeyShare := none
  publicKeySharePoints := []

/-- The points messages received by `pointsTestMember`: member 2 sends the
points of its polynomial, member 3 sends its points with the second one
doubled in the exponent, as the negative cases of
`TestCalculateAndVerifyPublicKeySharePoints` do. -/
def pointsTestMessages : List (MemberPublicKeySharePointsMessage SmallGroup) :=
  [ { senderID := 2, publicKeySharePoints := [smallGenerator ^ (3 : Int), smallGenerator ^ (5 : Int)] },
    { senderID := 3, publicKeySharePoints := [smallGenerator ^ (2 : Int), smallGenerator ^ (8 : Int)] } ]

/-- The check of member `sm` fails on `message`: the member holds a share
`s` from the sender and the product of the points differs from `g^s`. -/
def pointsCheckFails {G : Type} [Group G] (sm : SharingMember G)
    (message : MemberPublicKeySharePointsMessage G) : Prop :=
  ∃ s, sm.receivedValidSharesS.lookup message.senderID = some s
    ∧ pointsProduct sm.ID message.publicKeySharePoints ≠ sm.protocolParameters.g ^ s

/-- The points of `message` were computed from the coefficients that produced
the share the member `sm` holds from the sender. -/
def pointsHonest {G : Type} [Group G] (sm : SharingMember G)
    (message : MemberPublicKeySharePointsMessage G) : Prop :=
  ∃ coefficients : List Int,
    message.publicKeySharePoints = coefficients.map (fun a => sm.protocolParameters.g ^ a)
    ∧ sm.receivedValidSharesS.lookup message.senderID
        = some (evaluateMemberShare sm.protocolParameters.Q sm.ID coefficients)

end gjkr

/-! ## Nodes and channels for examples -/

namespace relay

/-- A signing handle for examples: the address is the low byte of each
coordinate. -/
def exampleSigning : Signing where
  PublicKeyToAddress := fun pk =>
    [⟨pk.X.natAbs % 256, Nat.mod_lt _ (by decide)⟩,
      ⟨pk.Y.natAbs % 256, Nat.mod_lt _ (by decide)⟩]

/-- A provider whose channels accept every filter. -/
def acceptingProvider : Provider where
  ChannelFor := fun name => .ok { Name := name, SetFilter := fun _ => none }

/-- A provider whose channels reject every filter. -/
def rejectingProvider : Provider where
  ChannelFor := fun name =>
    .ok { Name := name, SetFilter := fun _ => some "filters are not supported" }

/-- A provider that hands out no channel. -/
def failingProvider : Provider where
  ChannelFor := fun _ => .error "no such channel"

/-- A node with staker ID `0x01`, group size 3 and dishonest threshold 1. -/
def exampleNode (provider : Provider) : Node where
  StakerID := [1]
  netProvider := provider
  chainConfig := { GroupSize := 3, DishonestThreshold := 1 }

/-- A group selection result in which the staker `0x01` holds the seats 0
and 2. -/
def exampleSelection : GroupSelectionResult where
  SelectedStakers := [[1], [2], [1]]
  GroupSelectionEndBlock := 100

/-- The zero-based positions of `stakers` at which the staker is `stakerID`,
in increasing order. -/
def ownSeats (stakerID : List Byte) (stakers : List StakerAddress) : List Nat :=
  (List.range stakers.length).filter (fun i => decide (stakers[i]? = some stakerID))

end relay

namespace gjkr

open ephemeral

/-- A key for examples whose encryption fails when the randomness drawn is
zero and otherwise behaves as `exampleKey`. -/
def exhaustibleKey : SymmetricKey where
  Encrypt := fun nonce plaintext =>
    if nonce = 0 then .error "no randomness" else exampleKey.Encrypt nonce plaintext
  Decrypt := exampleKey.Decrypt

/-- A message of sender 1 that holds an entry for receiver 5. -/
def exampleMessage : PeerSharesMessage :=
  ((newPeerSharesMessage 1).addShares 5 1000 2000 exampleKey 3 4).1

end gjkr

/-! ## Lemmas on the byte encoding of integers -/

namespace big

theorem foldr_leBytes (fuel n : Nat) (h : n ≤ fuel) :
    (leBytes fuel n).foldr (fun b acc => acc * 256 + b.val) 0 = n := by
  induction fuel generalizing n with
  | zero =>
    have hn : n = 0 := Nat.le_zero.mp h
    subst hn
    rfl
  | succ fuel ih =>
    unfold leBytes
    by_cases hn : n = 0
    · simp [hn]
    · have hdiv : n / 256 ≤ fuel := by omega
      simp only [hn, if_false, List.foldr_cons, ih (n / 256) hdiv]
      omega

theorem beValue_reverse (l : List Byte) :
    beValue l.reverse = l.foldr (fun b acc => acc * 256 + b.val) 0 := by
  unfold beValue
  rw [List.foldl_reverse]

/-- Decoding the encoding of `x` gives the absolute value of `x`. -/
theorem SetBytes_Bytes_natAbs (x : Int) : SetBytes (Bytes x) = (x.natAbs : Int) := by
  unfold SetBytes Bytes
  rw [beValue_reverse, foldr_leBytes _ _ (Nat.le_refl _)]
  rfl

/-- Decoding the encoding of a non-negative `x` gives `x`. -/
theorem SetBytes_Bytes (x : Int) (h : 0 ≤ x) : SetBytes (Bytes x) = x := by
  rw [SetBytes_Bytes_natAbs]
  exact Int.natAbs_of_nonneg h

theorem SetBytes_nonneg (buf : List Byte) : 0 ≤ SetBytes buf :=
  Int.ofNat_nonneg _

end big

/-! ## The pairwise share payload -/

namespace gjkr

open ephemeral

/-- C1: round trip of pairwise shares. For every message, receiver, pair of
non-negative shares `s` and `t`, and key whose `Decrypt` returns the
plaintext of every ciphertext its `Encrypt` produces, if `addShares` returns
no error then on the resulting message `decryptShareS` returns `s` and
`decryptShareT` returns `t`, both without error. -/
theorem addShares_decrypt_roundtrip (psm : PeerSharesMessage) (receiverID : MemberID)
    (s t : Int) (key : SymmetricKey) (nonceS nonceT : Nat)
    (hs : 0 ≤ s) (ht : 0 ≤ t)
    (hkey : ∀ nonce plaintext ciphertext,
      key.Encrypt nonce plaintext = .ok ciphertext → key.Decrypt ciphertext = .ok plaintext)
    (hadd : (psm.addShares receiverID s t key nonceS nonceT).2 = none) :
    (psm.addShares receiverID s t key nonceS nonceT).1.decryptShareS receiverID key = .ok s
    ∧ (psm.addShares receiverID s t key nonceS nonceT).1.decryptShareT receiverID key
        = .ok t := by
  unfold PeerSharesMessage.addShares at hadd ⊢
  cases hS : key.Encrypt nonceS (big.Bytes s) with
  | error e => simp [hS] at hadd
  | ok encryptedS =>
    cases hT : key.Encrypt nonceT (big.Bytes t) with
    | error e => simp [hS, hT] at hadd
    | ok encryptedT =>
      simp only [PeerSharesMessage.decryptShareS, PeerSharesMessage.decryptShareT,
        AList.lookup_insert, hkey _ _ _ hS, hkey _ _ _ hT,
        big.SetBytes_Bytes s hs, big.SetBytes_Bytes t ht, and_self]

/-- C1 at a concrete input: shares 0 and 258 for receiver 2. -/
theorem addShares_decrypt_roundtrip_witness :
    ((newPeerSharesMessage 1).addShares 2 0 258 exampleKey 7 9).1.decryptShareS 2 exampleKey
        = .ok 0
    ∧ ((newPeerSharesMessage 1).addShares 2 0 258 exampleKey 7 9).1.decryptShareT 2 exampleKey
        = .ok 258 :=
  addShares_decrypt_roundtrip (newPeerSharesMessage 1) 2 0 258 exampleKey 7 9
    (by decide) (by decide)
    (by
      intro nonce plaintext ciphertext h
      simp only [exampleKey, Except.ok.injEq] at h
      subst h
      rfl)
    (by rfl)

/-- C2: `CanDecrypt` is an exact pre-filter. It returns true if and only if
both `decryptShareS` and `decryptShareT` return without error for that
receiver and key. -/
theorem CanDecrypt_iff_both_decrypt (psm : PeerSharesMessage) (receiverID : MemberID)
    (key : SymmetricKey) :
    psm.CanDecrypt receiverID key = true ↔
      (∃ s, psm.decryptShareS receiverID key = .ok s)
      ∧ (∃ t, psm.decryptShareT receiverID key = .ok t) := by
  unfold PeerSharesMessage.CanDecrypt
  cases hS : psm.decryptShareS receiverID key with
  | error e => simp
  | ok s =>
    cases hT : psm.decryptShareT receiverID key with
    | error e => simp
    | ok t => simp

/-- C3: a message with no entry for the receiver is rejected. When the shares
map has no key equal to `receiverID`, `decryptShareS` and `decryptShareT`
return the "no shares for receiver" error whatever the key is (the key is
not consulted) and `CanDecrypt` returns false; a message freshly created by
`newPeerSharesMessage` is such a message for every receiver. -/
theorem no_entry_rejected (psm : PeerSharesMessage) (receiverID : MemberID)
    (key : SymmetricKey) (hno : receiverID ∉ psm.shares.keys) :
    (psm.decryptShareS receiverID key = .error (.noSharesForReceiver receiverID)
      ∧ psm.decryptShareT receiverID key = .error (.noSharesForReceiver receiverID)
      ∧ psm.CanDecrypt receiverID key = false)
    ∧ ∀ senderID : MemberID,
        (newPeerSharesMessage senderID).decryptShareS receiverID key
            = .error (.noSharesForReceiver receiverID)
        ∧ (newPeerSharesMessage senderID).decryptShareT receiverID key
            = .error (.noSharesForReceiver receiverID)
        ∧ (newPeerSharesMessage senderID).CanDecrypt receiverID key = false := by
  have hlookup : psm.shares.lookup receiverID = none :=
    AList.lookup_eq_none.mpr (fun hmem => hno (AList.mem_keys.mp hmem))
  refine ⟨?_, ?_⟩
  · simp [PeerSharesMessage.decryptShareS, PeerSharesMessage.decryptShareT,
      PeerSharesMessage.CanDecrypt, hlookup]
  · intro senderID
    simp [PeerSharesMessage.decryptShareS, PeerSharesMessage.decryptShareT,
      PeerSharesMessage.CanDecrypt, newPeerSharesMessage, AList.lookup_empty]

/-- C3 at a concrete input: a message holding shares for receiver 2 only,
asked for receiver 3. -/
theorem no_entry_rejected_witness :
    (((newPeerSharesMessage 1).addShares 2 5 6 exampleKey 0 0).1.decryptShareS 3 exampleKey
        = .error (.noSharesForReceiver 3)
      ∧ ((newPeerSharesMessage 1).addShares 2 5 6 exampleKey 0 0).1.decryptShareT 3 exampleKey
        = .error (.noSharesForReceiver 3)
      ∧ ((newPeerSharesMessage 1).addShares 2 5 6 exampleKey 0 0).1.CanDecrypt 3 exampleKey
        = false) :=
  (no_entry_rejected ((newPeerSharesMessage 1).addShares 2 5 6 exampleKey 0 0).1 3
    exampleKey (by decide)).1

end gjkr

/-! ## The group-member filter -/

namespace hex

theorem hextable_injective :
    ∀ a b : Fin 16, hextable.getD a.val '0' = hextable.getD b.val '0' → a = b := by
  decide

theorem nibbles (v : Byte) :
    v.val >>> 4 = v.val / 16 ∧ v.val &&& 0x0f = v.val % 16 := by
  constructor
  · exact Nat.shiftRight_eq_div_pow v.val 4
  · exact Nat.and_pow_two_sub_one_eq_mod v.val 4

theorem digit_pair_injective (v w : Byte)
    (hhi : hextable.getD (v.val >>> 4) '0' = hextable.getD (w.val >>> 4) '0')
    (hlo : hextable.getD (v.val &&& 0x0f) '0' = hextable.getD (w.val &&& 0x0f) '0') :
    v = w := by
  rw [(nibbles v).1, (nibbles w).1] at hhi
  rw [(nibbles v).2, (nibbles w).2] at hlo
  have hv := v.isLt
  have hw := w.isLt
  have h1 := hextable_injective ⟨v.val / 16, by omega⟩ ⟨w.val / 16, by omega⟩ hhi
  have h2 := hextable_injective ⟨v.val % 16, by omega⟩ ⟨w.val % 16, by omega⟩ hlo
  have h1' : v.val / 16 = w.val / 16 := congrArg Fin.val h1
  have h2' : v.val % 16 = w.val % 16 := congrArg Fin.val h2
  apply Fin.ext
  omega

theorem encode_injective : ∀ a b : List Byte, encode a = encode b → a = b
  | [], [], _ => rfl
  | [], _ :: _, h => by simp [encode] at h
  | _ :: _, [], h => by simp [encode] at h
  | v :: as, w :: bs, h => by
    simp only [encode, List.cons.injEq] at h
    obtain ⟨hhi, hlo, hrest⟩ := h
    rw [digit_pair_injective v w hhi hlo, encode_injective as bs hrest]

/-- The hex encoding maps different byte strings to different strings. -/
theorem EncodeToString_injective (a b : List Byte)
    (h : EncodeToString a = EncodeToString b) : a = b := by
  unfold EncodeToString at h
  exact encode_injective a b (congrArg String.data h)

end hex

namespace relay

theorem lookup_foldl_insert {α : Type} (f : α → String) (a : String) :
    ∀ (members : List α) (m : AList (fun _ : String => Bool)),
      ((members.foldl (fun m x => m.insert (f x) true) m).lookup a).isSome = true
        ↔ (∃ x ∈ members, f x = a) ∨ (m.lookup a).isSome = true
  | [], m => by simp
  | x :: rest, m => by
    rw [List.foldl_cons, lookup_foldl_insert f a rest]
    by_cases hx : f x = a
    · subst hx
      simp [AList.lookup_insert]
    · have hne : a ≠ f x := fun h => hx h.symm
      simp [AList.lookup_insert_ne hne, hx]

/-- C4: the group-member filter admits exactly the members. The predicate
returned by `createGroupMemberFilter members signing` is true on a public
key if and only if the address `PublicKeyToAddress` gives for it is an
element of `members`. -/
theorem createGroupMemberFilter_iff_member (members : List StakerAddress)
    (signing : Signing) (authorPublicKey : PublicKey) :
    createGroupMemberFilter members signing authorPublicKey = true
      ↔ signing.PublicKeyToAddress authorPublicKey ∈ members := by
  unfold createGroupMemberFilter
  simp only [lookup_foldl_insert, AList.lookup_empty, Option.isSome_none,
    Bool.false_eq_true, or_false]
  constructor
  · rintro ⟨x, hx, heq⟩
    rw [← hex.EncodeToString_injective _ _ heq]
    exact hx
  · intro h
    exact ⟨_, h, rfl⟩

end relay

/-! ## Decryption failure -/

namespace big

theorem ofDigits_eq_foldr (l : List Byte) :
    Nat.ofDigits 256 (l.map Fin.val) = l.foldr (fun b acc => acc * 256 + b.val) 0 := by
  induction l with
  | nil => rfl
  | cons b rest ih =>
    rw [List.map_cons, Nat.ofDigits_cons, ih, List.foldr_cons]
    omega

/-- `SetBytes` gives the number whose base-256 digits, most significant
first, are the bytes of `buf`. -/
theorem SetBytes_eq_ofDigits (buf : List Byte) :
    SetBytes buf = ((Nat.ofDigits 256 (buf.reverse.map Fin.val) : Nat) : Int) := by
  unfold SetBytes
  rw [ofDigits_eq_foldr, ← beValue_reverse, List.reverse_reverse]
  rfl

end big

namespace gjkr

open ephemeral

/-- C5: decryption failure is observable at the message level.
`decryptShareS` returns an error if and only if the message has no entry for
the receiver or `Decrypt` fails on the entry's `encryptedShareS`; when the
entry exists and `Decrypt` returns a plaintext, it returns without error the
non-negative integer whose base-256 digits, most significant first, are the
bytes of the plaintext. The same holds for `decryptShareT` with
`encryptedShareT`. -/
theorem decrypt_failure_observable (psm : PeerSharesMessage) (receiverID : MemberID)
    (key : SymmetricKey) :
    (((∃ err, psm.decryptShareS receiverID key = .error err) ↔
        (psm.shares.lookup receiverID = none
          ∨ ∃ shares err, psm.shares.lookup receiverID = some shares
              ∧ key.Decrypt shares.encryptedShareS = .error err))
      ∧ (∀ shares plaintext, psm.shares.lookup receiverID = some shares →
          key.Decrypt shares.encryptedShareS = .ok plaintext →
          psm.decryptShareS receiverID key
              = .ok ((Nat.ofDigits 256 (plaintext.reverse.map Fin.val) : Nat) : Int)
            ∧ (0 : Int) ≤ ((Nat.ofDigits 256 (plaintext.reverse.map Fin.val) : Nat) : Int)))
    ∧ (((∃ err, psm.decryptShareT receiverID key = .error err) ↔
        (psm.shares.lookup receiverID = none
          ∨ ∃ shares err, psm.shares.lookup receiverID = some shares
              ∧ key.Decrypt shares.encryptedShareT = .error err))
      ∧ (∀ shares plaintext, psm.shares.lookup receiverID = some shares →
          key.Decrypt shares.encryptedShareT = .ok plaintext →
          psm.decryptShareT receiverID key
              = .ok ((Nat.ofDigits 256 (plaintext.reverse.map Fin.val) : Nat) : Int)
            ∧ (0 : Int) ≤ ((Nat.ofDigits 256 (plaintext.reverse.map Fin.val) : Nat) : Int))) := by
  unfold PeerSharesMessage.decryptShareS PeerSharesMessage.decryptShareT
  cases hl : psm.shares.lookup receiverID with
  | none => simp
  | some shares =>
    refine ⟨⟨?_, ?_⟩, ⟨?_, ?_⟩⟩
    · cases hd : key.Decrypt shares.encryptedShareS with
      | error e => simp [hd]
      | ok p => simp [hd]
    · intro shares' plaintext hsh hd
      cases hsh
      simp only [hd, big.SetBytes_eq_ofDigits, true_and]
      exact Int.ofNat_nonneg _
    · cases hd : key.Decrypt shares.encryptedShareT with
      | error e => simp [hd]
      | ok p => simp [hd]
    · intro shares' plaintext hsh hd
      cases hsh
      simp only [hd, big.SetBytes_eq_ofDigits, true_and]
      exact Int.ofNat_nonneg _

/-- C5 at a concrete input: the entry for receiver 2 holds a ciphertext of
the bytes `0, 1, 2`, which decrypt to 258. -/
theorem decrypt_failure_observable_witness :
    (PeerSharesMessage.mk 1
        ((∅ : AList (fun _ : MemberID => peerShares)).insert 2 ⟨[9, 0, 1, 2], []⟩)).decryptShareS
        2 exampleKey
      = .ok ((Nat.ofDigits 256 (([0, 1, 2] : List Byte).reverse.map Fin.val) : Nat) : Int) :=
  ((decrypt_failure_observable
      (PeerSharesMessage.mk 1
        ((∅ : AList (fun _ : MemberID => peerShares)).insert 2 ⟨[9, 0, 1, 2], []⟩))
      2 exampleKey).1.2 ⟨[9, 0, 1, 2], []⟩ [0, 1, 2] (by decide) (by rfl)).1

end gjkr

/-! ## Share combination -/

namespace gjkr

open ephemeral

theorem foldl_add_shares (l : List (Sigma fun _ : MemberID => Int)) (init : Int) :
    l.foldl (fun combined s => combined + s.2) init = init + (l.map (fun s => s.2)).sum := by
  induction l generalizing init with
  | nil => simp
  | cons s rest ih =>
    rw [List.foldl_cons, ih, List.map_cons, List.sum_cons]
    omega

/-- C6: share combination. After `CombineMemberShares` the group private key
share is the member's own share plus the sum of all received valid shares,
modulo the group order `q`, whatever the sequence in which the received
shares map is ranged over. -/
theorem CombineMemberShares_sum {G : Type} (qm : QualifiedMember G)
    (iteration : List (Sigma fun _ : MemberID => Int))
    (hperm : iteration.Perm qm.receivedValidSharesS.entries) :
    (qm.CombineMemberShares iteration).groupPrivateKeyShare
      = some ((qm.selfSecretShareS
          + (qm.receivedValidSharesS.entries.map (fun s => s.2)).sum)
            % qm.protocolParameters.Q) := by
  unfold QualifiedMember.CombineMemberShares
  simp only [foldl_add_shares]
  rw [(hperm.map (fun s => s.2)).sum_eq]

/-- C6 at the values of `TestCombineReceivedShares`, with the received shares
ranged over in the reverse of their stored sequence: the result is 84. -/
theorem CombineMemberShares_sum_witness :
    (combineTestMember.CombineMemberShares
        combineTestMember.receivedValidSharesS.entries.reverse).groupPrivateKeyShare
      = some 84 :=
  (CombineMemberShares_sum combineTestMember
      combineTestMember.receivedValidSharesS.entries.reverse
      (List.reverse_perm _)).trans (by decide)

end gjkr

/-! ## Public key share points -/

namespace gjkr

open ephemeral

/-- C8: public key share points are the secret coefficients in the exponent.
`CalculatePublicKeySharePoints` stores in the member and returns in the
message the same sequence of points; it has the length and order of the
secret coefficients, and its `k`-th element is `g^(a_k)`. -/
theorem CalculatePublicKeySharePoints_points {G : Type} [Group G] (sm : SharingMember G) :
    sm.CalculatePublicKeySharePoints.1.publicKeySharePoints
        = sm.CalculatePublicKeySharePoints.2.publicKeySharePoints
    ∧ sm.CalculatePublicKeySharePoints.2.senderID = sm.ID
    ∧ sm.CalculatePublicKeySharePoints.2.publicKeySharePoints.length
        = sm.secretCoefficients.length
    ∧ ∀ k : Nat,
        sm.CalculatePublicKeySharePoints.2.publicKeySharePoints[k]?
          = (sm.secretCoefficients[k]?).map (fun a => sm.protocolParameters.g ^ a) := by
  unfold SharingMember.CalculatePublicKeySharePoints
  refine ⟨rfl, rfl, ?_, ?_⟩
  · simp
  · intro k
    simp

theorem prod_map_pow_list {G : Type} [CommGroup G] {ι : Type} (f : ι → G) (n : Nat)
    (l : List ι) : (l.map (fun i => f i ^ n)).prod = (l.map f).prod ^ n := by
  induction l with
  | nil => simp
  | cons i rest ih => simp only [List.map_cons, List.prod_cons, ih, mul_pow]

theorem pointsProduct_cons {G : Type} [CommGroup G] (j : MemberID) (A : G) (rest : List G) :
    pointsProduct j (A :: rest) = A * pointsProduct j rest ^ j := by
  unfold pointsProduct
  rw [List.length_cons, List.range_succ_eq_map, List.map_cons, List.prod_cons,
    List.map_map, ← prod_map_pow_list]
  simp only [List.getD_cons_zero, pow_zero, pow_one]
  congr 2
  apply List.map_congr_left
  intro k _
  simp only [Function.comp, Nat.succ_eq_add_one, List.getD_cons_succ, pow_succ, pow_mul]

/-- The Horner-style accumulation computes the product of the
specification. -/
theorem hornerPoints_eq_pointsProduct {G : Type} [CommGroup G] (j : MemberID)
    (points : List G) : hornerPoints j points = pointsProduct j points := by
  induction points with
  | nil => simp [hornerPoints, pointsProduct]
  | cons A rest ih => rw [hornerPoints, pointsProduct_cons, ih]

theorem prod_map_zpow_list {G : Type} [CommGroup G] (g : G) (l : List Int) :
    (l.map (fun e => g ^ e)).prod = g ^ l.sum := by
  induction l with
  | nil => simp
  | cons e rest ih => simp only [List.map_cons, List.prod_cons, List.sum_cons, ih, zpow_add]

/-- Honestly computed points pass the check: with `g^q = 1`, the product of
the points `g^(a_k)` raised to `j^k` is `g` raised to the share
`f(j) mod q`. -/
theorem pointsProduct_honest {G : Type} [CommGroup G] (g : G) (q : Int) (j : MemberID)
    (coefficients : List Int) (hq : g ^ q = 1) :
    pointsProduct j (coefficients.map (fun a => g ^ a))
      = g ^ evaluateMemberShare q j coefficients := by
  have hterm : ∀ k : Nat,
      (coefficients.map (fun a => g ^ a)).getD k 1 ^ (j ^ k)
        = g ^ (coefficients.getD k 0 * (j : Int) ^ k) := by
    intro k
    have h1 : (coefficients.map (fun a => g ^ a)).getD k 1
        = g ^ coefficients.getD k 0 := by
      have := List.getD_map coefficients (0 : Int) (n := k) (fun a => g ^ a)
      simpa using this
    rw [h1, zpow_mul, ← Nat.cast_pow, zpow_natCast]
  unfold pointsProduct evaluateMemberShare
  rw [List.length_map]
  simp only [hterm]
  have hmap : (List.range coefficients.length).map
        (fun k : Nat => g ^ (coefficients.getD k 0 * (j : Int) ^ k))
      = ((List.range coefficients.length).map
          (fun k : Nat => coefficients.getD k 0 * (j : Int) ^ k)).map (fun e => g ^ e) := by
    rw [List.map_map]
    rfl
  rw [hmap, prod_map_zpow_list]
  generalize ((List.range coefficients.length).map
    (fun k : Nat => coefficients.getD k 0 * (j : Int) ^ k)).sum = total
  conv_lhs => rw [← Int.emod_add_ediv total q]
  rw [zpow_add, zpow_mul, hq, one_zpow, mul_one]

theorem isShareValid_iff {G : Type} [CommGroup G] [DecidableEq G] (g : G) (j : MemberID)
    (shareS : Int) (points : List G) :
    isShareValidAgainstPublicKeySharePoints g j shareS points = true
      ↔ pointsProduct j points = g ^ shareS := by
  unfold isShareValidAgainstPublicKeySharePoints
  rw [hornerPoints_eq_pointsProduct, decide_eq_true_iff]

/-- The loop over the messages: it ends without error when the member holds a
share and a key pair for every sender; a sender with a failing message is
mapped to the member's private key for it, every other entry of the accused
map is as it was. -/
theorem verifyPoints_spec {G : Type} [CommGroup G] [DecidableEq G] (sm : SharingMember G) :
    ∀ (messages : List (MemberPublicKeySharePointsMessage G))
      (accused : AList (fun _ : MemberID => PrivateKey)),
      (∀ m ∈ messages, m.senderID ∈ sm.receivedValidSharesS) →
      (∀ m ∈ messages, m.senderID ∈ sm.ephemeralKeyPairs) →
      ∃ result, verifyPoints sm messages accused = .ok result
        ∧ ∀ i : MemberID,
          ((∃ m ∈ messages, m.senderID = i ∧ pointsCheckFails sm m) →
            result.lookup i = (sm.ephemeralKeyPairs.lookup i).map (fun kp => kp.PrivateKey))
          ∧ ((¬ ∃ m ∈ messages, m.senderID = i ∧ pointsCheckFails sm m) →
            result.lookup i = accused.lookup i)
  | [], accused, _, _ => ⟨accused, rfl, fun i => ⟨by simp, fun _ => rfl⟩⟩
  | message :: rest, accused, hshares, hkeys => by
    have hsharesRest : ∀ m ∈ rest, m.senderID ∈ sm.receivedValidSharesS :=
      fun m hm => hshares m (List.mem_cons_of_mem _ hm)
    have hkeysRest : ∀ m ∈ rest, m.senderID ∈ sm.ephemeralKeyPairs :=
      fun m hm => hkeys m (List.mem_cons_of_mem _ hm)
    obtain ⟨shareS, hshare⟩ := Option.isSome_iff_exists.mp
      (AList.lookup_isSome.mpr (hshares message (List.mem_cons_self _ _)))
    obtain ⟨keyPair, hkey⟩ := Option.isSome_iff_exists.mp
      (AList.lookup_isSome.mpr (hkeys message (List.mem_cons_self _ _)))
    have hfails : pointsCheckFails sm message
        ↔ pointsProduct sm.ID message.publicKeySharePoints ≠ sm.protocolParameters.g ^ shareS := by
      unfold pointsCheckFails
      constructor
      · rintro ⟨s, hs, hne⟩
        rw [hshare] at hs
        cases hs
        exact hne
      · intro hne
        exact ⟨shareS, hshare, hne⟩
    unfold verifyPoints
    simp only [hshare, hkey]
    by_cases hvalid : isShareValidAgainstPublicKeySharePoints sm.protocolParameters.g sm.ID
        shareS message.publicKeySharePoints = true
    · simp only [hvalid, if_true]
      obtain ⟨result, hres, hspec⟩ := verifyPoints_spec sm rest accused hsharesRest hkeysRest
      have hok : ¬ pointsCheckFails sm message := by
        rw [hfails, not_not]
        exact (isShareValid_iff _ _ _ _).mp hvalid
      refine ⟨result, hres, fun i => ?_⟩
      have hiff : (∃ m ∈ message :: rest, m.senderID = i ∧ pointsCheckFails sm m)
          ↔ ∃ m ∈ rest, m.senderID = i ∧ pointsCheckFails sm m := by
        simp only [List.mem_cons, exists_eq_or_imp, hok, and_false, false_or]
      rw [hiff]
      exact hspec i
    · simp only [hvalid, Bool.false_eq_true, if_false]
      obtain ⟨result, hres, hspec⟩ := verifyPoints_spec sm rest
        (accused.insert message.senderID keyPair.PrivateKey) hsharesRest hkeysRest
      have hbad : pointsCheckFails sm message := by
        rw [hfails]
        exact fun h => hvalid ((isShareValid_iff _ _ _ _).mpr h)
      refine ⟨result, hres, fun i => ?_⟩
      by_cases hrest : ∃ m ∈ rest, m.senderID = i ∧ pointsCheckFails sm m
      · refine ⟨fun _ => (hspec i).1 hrest, fun hnot => ?_⟩
        exact absurd (by
          obtain ⟨m, hm, h⟩ := hrest
          exact ⟨m, List.mem_cons_of_mem _ hm, h⟩) hnot
      · by_cases hi : message.senderID = i
        · refine ⟨fun _ => ?_, fun hnot => ?_⟩
          · rw [(hspec i).2 hrest, ← hi, AList.lookup_insert, hkey]
            rfl
          · exact absurd ⟨message, List.mem_cons_self _ _, hi, hbad⟩ hnot
        · refine ⟨fun hex => ?_, fun _ => ?_⟩
          · obtain ⟨m, hm, hmi, hmf⟩ := hex
            rcases List.mem_cons.mp hm with heq | hmem
            · subst heq
              exact absurd hmi hi
            · exact absurd ⟨m, hmem, hmi, hmf⟩ hrest
          · rw [(hspec i).2 hrest, AList.lookup_insert_ne (fun h => hi h.symm)]

/-- C7: public key share point verification accuses exactly the wrong
senders. For a sharing member `j` that holds a validated share and an
ephemeral key pair for every sender of the received messages,
`VerifyPublicKeySharePoints` returns no error and an accusations message
sent by `j` whose accused map has as keys exactly the senders `i` with a
message failing `prod_k A_ik^(j^k) = g^(s_ij)`, each mapped to the private
ephemeral key of `j` for `i`; when `g` has order dividing `q` and every
message carries the points of the coefficients that produced `s_ij`, the
map is empty. -/
theorem VerifyPublicKeySharePoints_accuses_exactly {G : Type} [CommGroup G] [DecidableEq G]
    (sm : SharingMember G) (messages : List (MemberPublicKeySharePointsMessage G))
    (hshares : ∀ m ∈ messages, m.senderID ∈ sm.receivedValidSharesS)
    (hkeys : ∀ m ∈ messages, m.senderID ∈ sm.ephemeralKeyPairs) :
    ∃ accusations, sm.VerifyPublicKeySharePoints messages = .ok accusations
      ∧ accusations.senderID = sm.ID
      ∧ (∀ i : MemberID, i ∈ accusations.accusedMembersKeys
          ↔ ∃ m ∈ messages, m.senderID = i ∧ pointsCheckFails sm m)
      ∧ (∀ i : MemberID, i ∈ accusations.accusedMembersKeys →
          accusations.accusedMembersKeys.lookup i
            = (sm.ephemeralKeyPairs.lookup i).map (fun kp => kp.PrivateKey))
      ∧ (sm.protocolParameters.g ^ sm.protocolParameters.Q = 1 →
          (∀ m ∈ messages, pointsHonest sm m) →
          accusations.accusedMembersKeys = ∅) := by
  obtain ⟨result, hres, hspec⟩ := verifyPoints_spec sm messages ∅ hshares hkeys
  have hmem : ∀ i : MemberID, i ∈ result
      ↔ ∃ m ∈ messages, m.senderID = i ∧ pointsCheckFails sm m := by
    intro i
    constructor
    · intro hi
      by_contra hnot
      have hnone := (hspec i).2 hnot
      rw [AList.lookup_empty] at hnone
      exact (AList.lookup_eq_none.mp hnone) hi
    · intro hex
      have hsome := (hspec i).1 hex
      obtain ⟨m, hm, hmi, _⟩ := hex
      obtain ⟨keyPair, hkey⟩ := Option.isSome_iff_exists.mp
        (AList.lookup_isSome.mpr (hkeys m hm))
      rw [hmi] at hkey
      rw [hkey] at hsome
      exact AList.lookup_isSome.mp (by rw [hsome]; rfl)
  refine ⟨{ senderID := sm.ID, accusedMembersKeys := result }, ?_, rfl, hmem, ?_, ?_⟩
  · unfold SharingMember.VerifyPublicKeySharePoints
    rw [hres]
  · intro i hi
    exact (hspec i).1 ((hmem i).mp hi)
  · intro hq hhonest
    have hnone : ∀ i : MemberID, i ∉ result := by
      intro i hi
      obtain ⟨m, hm, _, s, hs, hne⟩ := (hmem i).mp hi
      obtain ⟨coefficients, hpoints, hshare⟩ := hhonest m hm
      rw [hs] at hshare
      cases hshare
      exact hne (hpoints ▸ pointsProduct_honest _ _ _ coefficients hq)
    apply AList.ext
    have hkeysNil : result.keys = [] :=
      List.eq_nil_iff_forall_not_mem.mpr (fun i hi => hnone i (AList.mem_keys.mpr hi))
    have : result.entries.map Sigma.fst = [] := hkeysNil
    simpa using this

/-- C7 at a concrete input: member 1 of the small group receives the honest
points of member 2 and the tampered points of member 3; the verification
returns without error and accuses member 3, with the private key held for
it, and not member 2. -/
theorem VerifyPublicKeySharePoints_accuses_exactly_witness :
    ∃ accusations,
      pointsTestMember.VerifyPublicKeySharePoints pointsTestMessages = .ok accusations
      ∧ accusations.accusedMembersKeys.lookup 3 = some ⟨33⟩
      ∧ 2 ∉ accusations.accusedMembersKeys
      ∧ ∃ none_accused,
          pointsTestMember.VerifyPublicKeySharePoints (pointsTestMessages.take 1)
            = .ok none_accused
          ∧ none_accused.accusedMembersKeys = ∅ := by
  obtain ⟨honestOnly, hokHonest, _, _, _, hempty⟩ :=
    VerifyPublicKeySharePoints_accuses_exactly pointsTestMember (pointsTestMessages.take 1)
      (by decide) (by decide)
  have hnoneAccused : honestOnly.accusedMembersKeys = ∅ := by
    apply hempty (by decide)
    intro m hm
    simp only [pointsTestMessages, List.take_succ_cons, List.take_zero,
      List.mem_singleton] at hm
    subst hm
    exact ⟨[3, 5], rfl, by decide⟩
  obtain ⟨accusations, hok, _, hmem, hkey, _⟩ :=
    VerifyPublicKeySharePoints_accuses_exactly pointsTestMember pointsTestMessages
      (by decide) (by decide)
  refine ⟨accusations, hok, ?_, ?_, honestOnly, hokHonest, hnoneAccused⟩
  · have h3 : 3 ∈ accusations.accusedMembersKeys :=
      (hmem 3).mpr ⟨_, List.mem_cons_of_mem _ (List.mem_cons_self _ _), rfl,
        6, by decide, by decide⟩
    rw [hkey 3 h3]
    decide
  · intro h2
    obtain ⟨m, hm, hsender, s, hs, hne⟩ := (hmem 2).mp h2
    simp only [pointsTestMessages, List.mem_cons, List.mem_singleton, List.not_mem_nil,
      or_false] at hm
    rcases hm with rfl | rfl
    · have hs1 : s = 1 := by
        have : pointsTestMember.receivedValidSharesS.lookup 2 = some 1 := by decide
        rw [this] at hs
        exact (Option.some.inj hs).symm
      subst hs1
      exact hne (by decide)
    · exact absurd hsender (by decide)

end gjkr

/-! ## Joining a group -/

namespace bytes

/-- `bytes.Compare` gives 0 exactly on equal byte strings. -/
theorem Compare_eq_zero_iff : ∀ a b : List Byte, Compare a b = 0 ↔ a = b
  | [], [] => by simp [Compare]
  | [], _ :: _ => by simp [Compare]
  | _ :: _, [] => by simp [Compare]
  | a :: as, b :: bs => by
    unfold Compare
    by_cases hlt : a < b
    · have hne : a ≠ b := ne_of_lt hlt
      simp [hlt, hne]
    · by_cases hgt : b < a
      · have hne : a ≠ b := (ne_of_lt hgt).symm
        simp [hlt, hgt, hne]
      · have heq : a = b := le_antisymm (not_lt.mp hgt) (not_lt.mp hlt)
        simp [hlt, hgt, heq, Compare_eq_zero_iff as bs]

end bytes

namespace relay

theorem ownIndexes_eq (stakerID : List Byte) :
    ∀ (stakers : List StakerAddress) (index : Nat),
      ownIndexes stakerID index stakers
        = (ownSeats stakerID stakers).map (fun i => i + index)
  | [], index => by simp [ownIndexes, ownSeats]
  | selectedStaker :: rest, index => by
    have hrest := ownIndexes_eq stakerID rest (index + 1)
    have hshift : (ownSeats stakerID (selectedStaker :: rest))
        = (if selectedStaker = stakerID then [0] else [])
          ++ (ownSeats stakerID rest).map Nat.succ := by
      unfold ownSeats
      rw [List.length_cons, List.range_succ_eq_map, List.filter_cons, List.filter_map]
      by_cases h : selectedStaker = stakerID
      · simp [h, Function.comp_def]
      · simp [h, Function.comp_def]
    rw [ownIndexes, hrest, hshift]
    by_cases h : selectedStaker = stakerID
    · have hcmp : bytes.Compare selectedStaker stakerID = 0 :=
        (bytes.Compare_eq_zero_iff _ _).mpr h
      rw [if_pos hcmp, if_pos h]
      simp [Function.comp_def, Nat.add_assoc, Nat.add_comm 1 index]
    · have hcmp : ¬ bytes.Compare selectedStaker stakerID = 0 :=
        fun hc => h ((bytes.Compare_eq_zero_iff _ _).mp hc)
      rw [if_neg hcmp, if_neg h]
      simp [Function.comp_def, Nat.add_assoc, Nat.add_comm 1 index]

theorem ownIndexes_zero (stakerID : List Byte) (stakers : List StakerAddress) :
    ownIndexes stakerID 0 stakers = ownSeats stakerID stakers := by
  rw [ownIndexes_eq]
  simp

theorem ownSeats_eq_nil (stakerID : List Byte) (stakers : List StakerAddress)
    (h : stakerID ∉ stakers) : ownSeats stakerID stakers = [] := by
  unfold ownSeats
  rw [List.filter_eq_nil_iff]
  intro i _ hi
  have heq : stakers[i]? = some stakerID := of_decide_eq_true hi
  exact h (List.getElem?_mem heq)

theorem startedDKGs_append (a b : List Effect) :
    startedDKGs (a ++ b) = startedDKGs a ++ startedDKGs b := by
  induction a with
  | nil => rfl
  | cons e rest ih => cases e <;> simp [startedDKGs, ih]

theorem startedDKGs_map (f : Nat → DKGCall) (l : List Nat) :
    startedDKGs (l.map (fun i => Effect.goExecuteDKG (f i))) = l.map f := by
  induction l with
  | nil => rfl
  | cons i rest ih => simp [startedDKGs, ih]

/-- `SetFilter` is called at most once in a run of `JoinGroupIfEligible`, and
only with the filter built from the full list of selected stakers. -/
theorem JoinGroupIfEligible_sets_filter_once (n : Node) (signing : Signing)
    (groupSelectionResult : GroupSelectionResult) (newEntry : Int) :
    (setFilterOutcomes
        (n.JoinGroupIfEligible signing groupSelectionResult newEntry)).length ≤ 1
    ∧ ∀ channelName filter err,
        Effect.setFilter channelName filter err
            ∈ n.JoinGroupIfEligible signing groupSelectionResult newEntry →
          filter = createGroupMemberFilter groupSelectionResult.SelectedStakers signing := by
  have houtcomes : ∀ (f : Nat → DKGCall) (l : List Nat),
      setFilterOutcomes (l.map (fun i => Effect.goExecuteDKG (f i))) = [] := by
    intro f l
    induction l with
    | nil => rfl
    | cons i rest ih => simp [setFilterOutcomes, ih]
  unfold Node.JoinGroupIfEligible
  simp only
  split
  · cases hch : n.netProvider.ChannelFor (big.Text newEntry 16) with
    | error err => simp [setFilterOutcomes]
    | ok broadcastChannel =>
      cases hset : broadcastChannel.SetFilter
          (createGroupMemberFilter groupSelectionResult.SelectedStakers signing) with
      | none =>
        simp only [hset]
        refine ⟨?_, ?_⟩
        · simp [setFilterOutcomes, houtcomes]
        · intro channelName filter err hmem
          simp at hmem
          exact hmem.2.1
      | some e =>
        simp only [hset]
        refine ⟨?_, ?_⟩
        · simp [setFilterOutcomes, houtcomes]
        · intro channelName filter err hmem
          simp at hmem
          exact hmem.2.1
  · simp [setFilterOutcomes]

/-- C9, evaluated where the claim fails: the node holds the seats 0 and 2 and
its channel rejects the filter. `SetFilter` is called once and returns an
error, and `dkg.ExecuteDKG` is started for both seats all the same. -/
theorem JoinGroupIfEligible_starts_DKG_after_SetFilter_error :
    setFilterOutcomes
        ((exampleNode rejectingProvider).JoinGroupIfEligible exampleSigning exampleSelection 255)
      = [some "filters are not supported"]
    ∧ (startedDKGs
        ((exampleNode rejectingProvider).JoinGroupIfEligible exampleSigning exampleSelection
          255)).map (fun call => call.playerIndex)
      = [0, 2] := by
  decide

/-- C10: eligibility selects exactly the node's own seats. When the broadcast
channel is obtained, `JoinGroupIfEligible` starts one `ExecuteDKG` run for
each zero-based position at which the selected staker equals the node's
staker ID, in increasing order, with that position as `playerIndex`, and
none for another position. When the node's ID occurs nowhere in the list
there is no effect at all: no channel request, no filter, no DKG. When
obtaining the channel fails, no DKG is started. -/
theorem JoinGroupIfEligible_own_seats (n : Node) (signing : Signing)
    (groupSelectionResult : GroupSelectionResult) (newEntry : Int) :
    (∀ broadcastChannel,
        n.netProvider.ChannelFor (big.Text newEntry 16) = .ok broadcastChannel →
        startedDKGs (n.JoinGroupIfEligible signing groupSelectionResult newEntry)
          = (ownSeats n.StakerID groupSelectionResult.SelectedStakers).map
              (fun index =>
                { newEntry := newEntry
                  playerIndex := index
                  groupSize := n.chainConfig.GroupSize
                  dishonestThreshold := n.chainConfig.DishonestThreshold
                  startBlockHeight := groupSelectionResult.GroupSelectionEndBlock
                  channelName := broadcastChannel.Name }))
    ∧ (n.StakerID ∉ groupSelectionResult.SelectedStakers →
        n.JoinGroupIfEligible signing groupSelectionResult newEntry = [])
    ∧ (∀ err, n.netProvider.ChannelFor (big.Text newEntry 16) = .error err →
        startedDKGs (n.JoinGroupIfEligible signing groupSelectionResult newEntry) = []) := by
  refine ⟨?_, ?_, ?_⟩
  · intro broadcastChannel hch
    unfold Node.JoinGroupIfEligible
    simp only [ownIndexes_zero, hch]
    split
    · cases hset : broadcastChannel.SetFilter
          (createGroupMemberFilter groupSelectionResult.SelectedStakers signing) with
      | none =>
        simp only [startedDKGs_append, startedDKGs, startedDKGs_map, List.nil_append,
          List.append_eq]
      | some e =>
        simp only [startedDKGs_append, startedDKGs, startedDKGs_map, List.nil_append,
          List.append_eq]
    · rename_i hlen
      have hnil : ownSeats n.StakerID groupSelectionResult.SelectedStakers = [] :=
        List.length_eq_zero.mp (by omega)
      rw [hnil]
      rfl
  · intro hnot
    unfold Node.JoinGroupIfEligible
    simp [ownIndexes_zero, ownSeats_eq_nil _ _ hnot]
  · intro err hch
    unfold Node.JoinGroupIfEligible
    simp only [hch]
    split
    · rfl
    · rfl

/-- C10 at concrete inputs: the staker `0x01` holds the seats 0 and 2 of
three; a node with another staker ID does nothing; a node whose provider
hands out no channel starts no DKG. -/
theorem JoinGroupIfEligible_own_seats_witness :
    (startedDKGs
        ((exampleNode acceptingProvider).JoinGroupIfEligible exampleSigning exampleSelection
          255)).map (fun call => call.playerIndex) = [0, 2]
    ∧ ({ exampleNode acceptingProvider with StakerID := [3] } : Node).JoinGroupIfEligible
        exampleSigning exampleSelection 255 = []
    ∧ startedDKGs
        ((exampleNode failingProvider).JoinGroupIfEligible exampleSigning exampleSelection 255)
        = [] :=
  ⟨by
    rw [(JoinGroupIfEligible_own_seats (exampleNode acceptingProvider) exampleSigning
      exampleSelection 255).1 _ rfl]
    decide,
   (JoinGroupIfEligible_own_seats ({ exampleNode acceptingProvider with StakerID := [3] } : Node)
      exampleSigning exampleSelection 255).2.1 (by decide),
   (JoinGroupIfEligible_own_seats (exampleNode failingProvider) exampleSigning
      exampleSelection 255).2.2 _ rfl⟩

end relay

/-! ## Adding shares: acceptance, failure and frame -/

namespace gjkr

open ephemeral

/-- C11: an honest sender's message passes the pre-filter. For every
receiver, shares `s` and `t`, and key whose `Decrypt` succeeds on and inverts
every output of its `Encrypt`, if `addShares` returns no error then
`CanDecrypt` is true on the resulting message for that receiver and key. -/
theorem addShares_CanDecrypt (psm : PeerSharesMessage) (receiverID : MemberID)
    (s t : Int) (key : SymmetricKey) (nonceS nonceT : Nat)
    (hkey : ∀ nonce plaintext ciphertext,
      key.Encrypt nonce plaintext = .ok ciphertext → key.Decrypt ciphertext = .ok plaintext)
    (hadd : (psm.addShares receiverID s t key nonceS nonceT).2 = none) :
    (psm.addShares receiverID s t key nonceS nonceT).1.CanDecrypt receiverID key = true := by
  unfold PeerSharesMessage.addShares at hadd ⊢
  cases hS : key.Encrypt nonceS (big.Bytes s) with
  | error e => simp [hS] at hadd
  | ok encryptedS =>
    cases hT : key.Encrypt nonceT (big.Bytes t) with
    | error e => simp [hS, hT] at hadd
    | ok encryptedT =>
      simp only [PeerSharesMessage.CanDecrypt, PeerSharesMessage.decryptShareS,
        PeerSharesMessage.decryptShareT, AList.lookup_insert, hkey _ _ _ hS, hkey _ _ _ hT]

/-- C11 at a concrete input: shares 7 and 300 for receiver 2. -/
theorem addShares_CanDecrypt_witness :
    ((newPeerSharesMessage 1).addShares 2 7 300 exampleKey 1 2).1.CanDecrypt 2 exampleKey
      = true :=
  addShares_CanDecrypt (newPeerSharesMessage 1) 2 7 300 exampleKey 1 2
    (by
      intro nonce plaintext ciphertext h
      simp only [exampleKey, Except.ok.injEq] at h
      subst h
      rfl)
    (by rfl)

/-- C12: `addShares` is atomic on failure. It returns an error if and only if
`Encrypt` fails on the bytes of the S share or on the bytes of the T share,
and whenever it returns an error the message (its shares map and its
sender) is as before the call. -/
theorem addShares_atomic_on_failure (psm : PeerSharesMessage) (receiverID : MemberID)
    (s t : Int) (key : SymmetricKey) (nonceS nonceT : Nat) :
    ((∃ err, (psm.addShares receiverID s t key nonceS nonceT).2 = some err)
      ↔ ((∃ e, key.Encrypt nonceS (big.Bytes s) = .error e)
          ∨ (∃ e, key.Encrypt nonceT (big.Bytes t) = .error e)))
    ∧ (∀ err, (psm.addShares receiverID s t key nonceS nonceT).2 = some err →
        (psm.addShares receiverID s t key nonceS nonceT).1 = psm
        ∧ (psm.addShares receiverID s t key nonceS nonceT).1.shares = psm.shares
        ∧ (psm.addShares receiverID s t key nonceS nonceT).1.senderID = psm.senderID) := by
  unfold PeerSharesMessage.addShares
  cases hS : key.Encrypt nonceS (big.Bytes s) with
  | error e => simp
  | ok encryptedS =>
    cases hT : key.Encrypt nonceT (big.Bytes t) with
    | error e => simp
    | ok encryptedT => simp

/-- C12 at a concrete input: the S share is encrypted, the encryption of the T
share fails, and the message still has no entry for receiver 2. -/
theorem addShares_atomic_on_failure_witness :
    (exampleMessage.addShares 2 7 300 exhaustibleKey 1 0).1 = exampleMessage
    ∧ (exampleMessage.addShares 2 7 300 exhaustibleKey 1 0).1.shares = exampleMessage.shares
    ∧ (exampleMessage.addShares 2 7 300 exhaustibleKey 1 0).1.senderID
        = exampleMessage.senderID :=
  (addShares_atomic_on_failure exampleMessage 2 7 300 exhaustibleKey 1 0).2
    (.couldNotEncryptT "no randomness") (by rfl)

theorem addShares_shares_of_ok (psm : PeerSharesMessage) (receiverID : MemberID)
    (s t : Int) (key : SymmetricKey) (nonceS nonceT : Nat)
    (hadd : (psm.addShares receiverID s t key nonceS nonceT).2 = none) :
    ∃ entry : peerShares,
      key.Encrypt nonceS (big.Bytes s) = .ok entry.encryptedShareS
      ∧ key.Encrypt nonceT (big.Bytes t) = .ok entry.encryptedShareT
      ∧ (psm.addShares receiverID s t key nonceS nonceT).1
          = { psm with shares := psm.shares.insert receiverID entry } := by
  unfold PeerSharesMessage.addShares at hadd ⊢
  cases hS : key.Encrypt nonceS (big.Bytes s) with
  | error e => simp [hS] at hadd
  | ok encryptedS =>
    cases hT : key.Encrypt nonceT (big.Bytes t) with
    | error e => simp [hS, hT] at hadd
    | ok encryptedT => exact ⟨⟨encryptedS, encryptedT⟩, rfl, rfl, rfl⟩

/-- C13: `addShares` touches only the addressed receiver's entry. After a
successful `addShares` for `receiverID` the sender is unchanged and, for
every other receiver `r`, the entry of `r` is unchanged, so that
`decryptShareS`, `decryptShareT` and `CanDecrypt` for `r` return what they
returned before, with any key. A second successful `addShares` for the same
receiver replaces the entry: the map has the same keys as after the first
call, and the message is the one the second call alone would have built. -/
theorem addShares_frame (psm : PeerSharesMessage) (receiverID : MemberID)
    (s t : Int) (key : SymmetricKey) (nonceS nonceT : Nat)
    (hadd : (psm.addShares receiverID s t key nonceS nonceT).2 = none) :
    (psm.addShares receiverID s t key nonceS nonceT).1.senderID = psm.senderID
    ∧ (∀ r : MemberID, r ≠ receiverID →
        (psm.addShares receiverID s t key nonceS nonceT).1.shares.lookup r
            = psm.shares.lookup r
        ∧ ∀ k : SymmetricKey,
          (psm.addShares receiverID s t key nonceS nonceT).1.decryptShareS r k
              = psm.decryptShareS r k
          ∧ (psm.addShares receiverID s t key nonceS nonceT).1.decryptShareT r k
              = psm.decryptShareT r k
          ∧ (psm.addShares receiverID s t key nonceS nonceT).1.CanDecrypt r k
              = psm.CanDecrypt r k)
    ∧ (∀ (s2 t2 : Int) (key2 : SymmetricKey) (nonceS2 nonceT2 : Nat),
        ((psm.addShares receiverID s t key nonceS nonceT).1.addShares
            receiverID s2 t2 key2 nonceS2 nonceT2).2 = none →
        ((psm.addShares receiverID s t key nonceS nonceT).1.addShares
            receiverID s2 t2 key2 nonceS2 nonceT2).1.shares.keys
          = (psm.addShares receiverID s t key nonceS nonceT).1.shares.keys
        ∧ ((psm.addShares receiverID s t key nonceS nonceT).1.addShares
            receiverID s2 t2 key2 nonceS2 nonceT2).1
          = (psm.addShares receiverID s2 t2 key2 nonceS2 nonceT2).1) := by
  obtain ⟨entry, _, _, hafter⟩ :=
    addShares_shares_of_ok psm receiverID s t key nonceS nonceT hadd
  rw [hafter]
  refine ⟨rfl, ?_, ?_⟩
  · intro r hr
    have hlookup : (psm.shares.insert receiverID entry).lookup r = psm.shares.lookup r :=
      AList.lookup_insert_ne hr
    refine ⟨hlookup, fun k => ?_⟩
    simp only [PeerSharesMessage.CanDecrypt, PeerSharesMessage.decryptShareS,
      PeerSharesMessage.decryptShareT, hlookup, and_self]
  · intro s2 t2 key2 nonceS2 nonceT2 hadd2
    obtain ⟨entry2, hS2, hT2, hafter2⟩ :=
      addShares_shares_of_ok _ receiverID s2 t2 key2 nonceS2 nonceT2 hadd2
    rw [hafter2]
    refine ⟨?_, ?_⟩
    · simp only [AList.keys_insert, List.erase_cons_head]
    · simp only [PeerSharesMessage.addShares, hS2, hT2, AList.insert_insert]

/-- C13 at a concrete input: the message holds an entry for receiver 5; adding
shares for receiver 2 leaves what receiver 5 decrypts as it was. -/
theorem addShares_frame_witness :
    (exampleMessage.addShares 2 7 300 exampleKey 1 2).1.decryptShareS 5 exampleKey
        = exampleMessage.decryptShareS 5 exampleKey
    ∧ (exampleMessage.addShares 2 7 300 exampleKey 1 2).1.decryptShareT 5 exampleKey
        = exampleMessage.decryptShareT 5 exampleKey
    ∧ (exampleMessage.addShares 2 7 300 exampleKey 1 2).1.CanDecrypt 5 exampleKey
        = exampleMessage.CanDecrypt 5 exampleKey :=
  ((addShares_frame exampleMessage 2 7 300 exampleKey 1 2 (by rfl)).2.1 5
    (by decide)).2 exampleKey

end gjkr

/-! ## The filter as a function of the member set -/

namespace relay

/-- The filter built from `members` is true on a public key exactly when its
address is an element of `members`. -/
theorem filter_true_iff_mem (members : List StakerAddress) (signing : Signing)
    (authorPublicKey : PublicKey) :
    createGroupMemberFilter members signing authorPublicKey = true
      ↔ signing.PublicKeyToAddress authorPublicKey ∈ members := by
  unfold createGroupMemberFilter
  simp only [lookup_foldl_insert, AList.lookup_empty, Option.isSome_none,
    Bool.false_eq_true, or_false]
  exact ⟨fun ⟨_, hx, heq⟩ => hex.EncodeToString_injective _ _ heq ▸ hx,
    fun h => ⟨_, h, rfl⟩⟩

/-- C14: the group-member filter depends only on the set of member addresses.
Two member lists with the same elements give, with the same signing mapping,
predicates that agree on every author public key; the predicate of the empty
list rejects every author; two public keys mapped to the same address
receive the same decision. -/
theorem createGroupMemberFilter_set_only (members1 members2 : List StakerAddress)
    (signing : Signing) (hsame : ∀ address, address ∈ members1 ↔ address ∈ members2) :
    (∀ authorPublicKey,
        createGroupMemberFilter members1 signing authorPublicKey
          = createGroupMemberFilter members2 signing authorPublicKey)
    ∧ (∀ authorPublicKey, createGroupMemberFilter [] signing authorPublicKey = false)
    ∧ (∀ pk1 pk2, signing.PublicKeyToAddress pk1 = signing.PublicKeyToAddress pk2 →
        createGroupMemberFilter members1 signing pk1
          = createGroupMemberFilter members1 signing pk2) := by
  refine ⟨?_, ?_, ?_⟩
  · intro authorPublicKey
    rw [Bool.eq_iff_iff, filter_true_iff_mem,
      filter_true_iff_mem]
    exact hsame _
  · intro authorPublicKey
    rw [← Bool.not_eq_true, filter_true_iff_mem]
    exact List.not_mem_nil _
  · intro pk1 pk2 haddr
    rw [Bool.eq_iff_iff, filter_true_iff_mem,
      filter_true_iff_mem, haddr]

/-- C14 at a concrete input: a list with a duplicate and its deduplicated
permutation give the same decision on the author with coordinates 1 and 0,
whose address is the member `0x01 0x00`. -/
theorem createGroupMemberFilter_set_only_witness :
    createGroupMemberFilter [[1, 0], [2, 0], [1, 0]] exampleSigning ⟨1, 0⟩
      = createGroupMemberFilter [[2, 0], [1, 0]] exampleSigning ⟨1, 0⟩ :=
  (createGroupMemberFilter_set_only [[1, 0], [2, 0], [1, 0]] [[2, 0], [1, 0]] exampleSigning
    (by
      intro address
      simp only [List.mem_cons, List.mem_singleton, List.not_mem_nil, or_false]
      tauto)).1 ⟨1, 0⟩

end relay

/-! ## The share encoding carries the magnitude only -/

namespace gjkr

open ephemeral

theorem decryptShareS_nonneg (psm : PeerSharesMessage) (receiverID : MemberID)
    (key : SymmetricKey) (v : Int) (h : psm.decryptShareS receiverID key = .ok v) :
    0 ≤ v := by
  unfold PeerSharesMessage.decryptShareS at h
  cases hl : psm.shares.lookup receiverID with
  | none => simp [hl] at h
  | some shares =>
    cases hd : key.Decrypt shares.encryptedShareS with
    | error e => simp [hl, hd] at h
    | ok plaintext =>
      simp only [hl, hd, Except.ok.injEq] at h
      exact h ▸ big.SetBytes_nonneg plaintext

theorem decryptShareT_nonneg (psm : PeerSharesMessage) (receiverID : MemberID)
    (key : SymmetricKey) (v : Int) (h : psm.decryptShareT receiverID key = .ok v) :
    0 ≤ v := by
  unfold PeerSharesMessage.decryptShareT at h
  cases hl : psm.shares.lookup receiverID with
  | none => simp [hl] at h
  | some shares =>
    cases hd : key.Decrypt shares.encryptedShareT with
    | error e => simp [hl, hd] at h
    | ok plaintext =>
      simp only [hl, hd, Except.ok.injEq] at h
      exact h ▸ big.SetBytes_nonneg plaintext

/-- C15: the share encoding carries the magnitude only. For every integer
shares `s` and `t`, negative ones included, and every key whose `Decrypt`
inverts its `Encrypt`, after a successful `addShares` the value returned by
`decryptShareS` is `|s|` and the value returned by `decryptShareT` is `|t|`:
the share itself when it is non-negative, its negation when it is negative.
A decrypted value is never negative, and no bound `q` stands in the way of a
larger magnitude: whatever `q` is, a share of magnitude at least `q` is
returned as it is. -/
theorem addShares_decrypt_magnitude (psm : PeerSharesMessage) (receiverID : MemberID)
    (s t : Int) (key : SymmetricKey) (nonceS nonceT : Nat)
    (hkey : ∀ nonce plaintext ciphertext,
      key.Encrypt nonce plaintext = .ok ciphertext → key.Decrypt ciphertext = .ok plaintext)
    (hadd : (psm.addShares receiverID s t key nonceS nonceT).2 = none) :
    ((psm.addShares receiverID s t key nonceS nonceT).1.decryptShareS receiverID key = .ok |s|
      ∧ (psm.addShares receiverID s t key nonceS nonceT).1.decryptShareT receiverID key
          = .ok |t|)
    ∧ ((0 ≤ s →
          (psm.addShares receiverID s t key nonceS nonceT).1.decryptShareS receiverID key
            = .ok s)
      ∧ (s < 0 →
          (psm.addShares receiverID s t key nonceS nonceT).1.decryptShareS receiverID key
            = .ok (-s))
      ∧ (0 ≤ t →
          (psm.addShares receiverID s t key nonceS nonceT).1.decryptShareT receiverID key
            = .ok t)
      ∧ (t < 0 →
          (psm.addShares receiverID s t key nonceS nonceT).1.decryptShareT receiverID key
            = .ok (-t)))
    ∧ (∀ (m : PeerSharesMessage) (r : MemberID) (k : SymmetricKey) (v : Int),
        (m.decryptShareS r k = .ok v → 0 ≤ v) ∧ (m.decryptShareT r k = .ok v → 0 ≤ v))
    ∧ (∀ q : Int, q ≤ |s| →
        ∃ v, (psm.addShares receiverID s t key nonceS nonceT).1.decryptShareS receiverID key
            = .ok v ∧ q ≤ v) := by
  have hboth :
      (psm.addShares receiverID s t key nonceS nonceT).1.decryptShareS receiverID key
          = .ok |s|
      ∧ (psm.addShares receiverID s t key nonceS nonceT).1.decryptShareT receiverID key
          = .ok |t| := by
    obtain ⟨entry, hS, hT, hafter⟩ :=
      addShares_shares_of_ok psm receiverID s t key nonceS nonceT hadd
    rw [hafter]
    simp only [PeerSharesMessage.decryptShareS, PeerSharesMessage.decryptShareT,
      AList.lookup_insert, hkey _ _ _ hS, hkey _ _ _ hT, big.SetBytes_Bytes_natAbs,
      Int.natCast_natAbs, and_self]
  refine ⟨hboth, ⟨?_, ?_, ?_, ?_⟩, ?_, ?_⟩
  · intro hs
    rw [hboth.1, abs_of_nonneg hs]
  · intro hs
    rw [hboth.1, abs_of_neg hs]
  · intro ht
    rw [hboth.2, abs_of_nonneg ht]
  · intro ht
    rw [hboth.2, abs_of_neg ht]
  · intro m r k v
    exact ⟨decryptShareS_nonneg m r k v, decryptShareT_nonneg m r k v⟩
  · intro q hq
    exact ⟨|s|, hboth.1, hq⟩

/-- C15 at a concrete input: the shares -258 and -1 come back as 258 and 1. -/
theorem addShares_decrypt_magnitude_witness :
    ((newPeerSharesMessage 1).addShares 2 (-258) (-1) exampleKey 7 9).1.decryptShareS 2
        exampleKey = .ok 258
    ∧ ((newPeerSharesMessage 1).addShares 2 (-258) (-1) exampleKey 7 9).1.decryptShareT 2
        exampleKey = .ok 1 :=
  (addShares_decrypt_magnitude (newPeerSharesMessage 1) 2 (-258) (-1) exampleKey 7 9
    (by
      intro nonce plaintext ciphertext h
      simp only [exampleKey, Except.ok.injEq] at h
      subst h
      rfl)
    (by rfl)).1

end gjkr
